import Mathlib

/-!
Verification of the `fmga` genetic-algorithm engine
(`fmga/function_maximize.py`).

Real numbers of the Python source are modelled as rationals `ℚ`.
Randomness is resolved by explicit oracle arguments:
* `random.uniform(a, b)` is modelled by `uniform a b t` where the draw
  `t` ranges over `[0,1)` (CPython computes `a + (b-a)*random()` with
  `random() ∈ [0,1)`);
* `random.randint(lo, hi)` (inclusive on both ends) is modelled by a
  value constrained by `randintSupport lo hi`;
* the parent/split draws of the breeding loop are given by an oracle
  list of triples.
Fallible constructors (`raise ValueError`) are modelled with `Except`.
-/

namespace Fmga

/-- CPython `random.uniform(a, b) = a + (b - a) * random()`; the raw draw
`t = random()` lies in `[0,1)`. -/
def uniform (a b t : ℚ) : ℚ := a + (b - a) * t

/-- Support of Python `random.randint(lo, hi)`: inclusive on both ends. -/
def randintSupport (lo hi k : ℕ) : Prop := lo ≤ k ∧ k ≤ hi

instance (lo hi k : ℕ) : Decidable (randintSupport lo hi k) := by
  unfold randintSupport; infer_instance

/-- Inner scan of `weighted_choice`: walks `choices` and the normalized
weights in lockstep, keeping the running `total` (initially 1), subtracting
each normalized weight and returning the current choice once
`total < threshold`; returns `none` when the loop falls through
(Python returns `None`). -/
def wcScan {α : Type} : List α → List ℚ → ℚ → ℚ → Option α
  | [], _, _, _ => none
  | _ :: _, [], _, _ => none
  | c :: cs, w :: ws, total, threshold =>
    let total2 := total - w
    if total2 < threshold then some c else wcScan cs ws total2 threshold

/-- Model of `weighted_choice(choices, weights)` from the source, with the internal
`uniform(0, 1)` draw exposed as `threshold`.  Weights are normalized by
their sum, then the cumulative scan starts from `total = 1`. -/
def weighted_choice {α : Type} (choices : List α) (weights : List ℚ)
    (threshold : ℚ) : Option α :=
  let normalized_weights := weights.map (fun w => w / weights.sum)
  wcScan choices normalized_weights 1 threshold

/-- A `Point`: one candidate.  `popId` models the identity of the
`associated_population` object (`none` for a free-standing point). -/
structure Point where
  popId : Option ℕ
  boundaries : List (ℚ × ℚ)
  mutation_range : ℚ
  coordinates : List ℚ
  index : ℤ
  fitness : ℚ
  diversity : ℚ
  fitness_rank : ℤ
  diversity_rank : ℤ
deriving DecidableEq, Inhabited, Repr

/-- Model of `Point.__init__`: one fresh point.  `ts` are the raw `random()` draws,
one per dimension; coordinate `d` is `uniform(boundaries[d][0],
boundaries[d][1])`.  The remaining fields are the literal initial values of
the constructor. -/
def Point.init (popId : Option ℕ) (boundaries : List (ℚ × ℚ))
    (mutation_range : ℚ) (ts : List ℚ) : Point :=
  { popId := popId
    boundaries := boundaries
    mutation_range := mutation_range
    coordinates := (boundaries.zip ts).map (fun bt => uniform bt.1.1 bt.1.2 bt.2)
    index := -1
    fitness := 0
    diversity := 0
    fitness_rank := -1
    diversity_rank := -1 }

/-- Model of `Point.evaluate_fitness`: sets `fitness` to the objective at the
point's coordinates. -/
def Point.evaluate_fitness (p : Point) (eval_function : List ℚ → ℚ) : Point :=
  { p with fitness := eval_function p.coordinates }

/-- Model of `Point.mutate`: the chosen dimension `i` is a `randint(0, size-1)` draw
and `t` the raw draw of the `uniform(-mutation_range, mutation_range)`
perturbation.  Mirrors the two clamping lines of the source verbatim:
first `coordinates[i] = min(boundaries[i][0], coordinates[i])`,
then `coordinates[i] = max(boundaries[i][1], coordinates[i])`. -/
def Point.mutate (p : Point) (i : ℕ) (t : ℚ) : Point :=
  let perturbed := p.coordinates.getD i 0 + uniform (-p.mutation_range) p.mutation_range t
  let b := p.boundaries.getD i (0, 0)
  let afterMin := min b.1 perturbed
  let afterMax := max b.2 afterMin
  { p with coordinates := p.coordinates.set i afterMax }

/-- Model of `crossover(point1, point2)`: fails when the parents belong to different
populations; otherwise the children are fresh points of the parents'
population whose coordinates are overwritten with the spliced parent
coordinates at `splitpoint`, a `randint(1, np.size(point1.coordinates))`
draw.  (The children's own random initial coordinates are discarded by the
overwrite, so no draw oracle is needed for them.)

`crossoverChild a b k` is one such child: a fresh point of `a`'s
population whose coordinates are `a`'s first `k` followed by `b`'s
remainder. -/
def crossoverChild (a b : Point) (splitpoint : ℕ) : Point :=
  { popId := a.popId
    boundaries := a.boundaries
    mutation_range := a.mutation_range
    coordinates := a.coordinates.take splitpoint ++ b.coordinates.drop splitpoint
    index := -1, fitness := 0, diversity := 0
    fitness_rank := -1, diversity_rank := -1 }

def crossover (point1 point2 : Point) (splitpoint : ℕ) :
    Except String (Point × Point) :=
  if point1.popId ≠ point2.popId then
    .error "Points are from different populations."
  else
    .ok (crossoverChild point1 point2 splitpoint,
         crossoverChild point2 point1 splitpoint)

/-- The rank-assignment loop
`for rank_number in range(size): points[rank_number].fitness_rank = rank_number`,
written as recursion over the (sorted) list with the next rank to hand out. -/
def assignFitnessRanks (n : ℕ) : List Point → List Point
  | [] => []
  | p :: ps => { p with fitness_rank := (n : ℤ) } :: assignFitnessRanks (n + 1) ps

/-- Same loop for `diversity_rank`. -/
def assignDiversityRanks (n : ℕ) : List Point → List Point
  | [] => []
  | p :: ps => { p with diversity_rank := (n : ℤ) } :: assignDiversityRanks (n + 1) ps

/-- Model of `self.points.sort(key=lambda point: point.fitness, reverse=True)`:
stable descending sort on `fitness`. -/
def sortByFitnessDesc (points : List Point) : List Point :=
  points.mergeSort (fun a b => b.fitness ≤ a.fitness)

/-- Model of `self.points.sort(key=lambda point: point.diversity, reverse=True)`:
stable descending sort on `diversity`. -/
def sortByDiversityDesc (points : List Point) : List Point :=
  points.mergeSort (fun a b => b.diversity ≤ a.diversity)

/-- Model of `self.points.sort(key=lambda point: point.fitness_rank)`: stable
ascending sort on `fitness_rank` (start of `__breed`). -/
def sortByFitnessRank (points : List Point) : List Point :=
  points.mergeSort (fun a b => a.fitness_rank ≤ b.fitness_rank)

/-- Elementwise sum of two coordinate vectors (`numpy` array addition). -/
def vecAdd (xs ys : List ℚ) : List ℚ := List.zipWith (· + ·) xs ys

/-- Model of `np.sum(np.abs(point.coordinates - mean_coordinates))`: L1 distance. -/
def l1Distance (xs ys : List ℚ) : ℚ :=
  (List.zipWith (fun a b => |a - b|) xs ys).sum

/-- The `Population` container fields, as assigned in `__init__`.
`popId` models the identity of the Python object. -/
structure Population where
  popId : ℕ
  points : List Point
  size : ℕ
  objective_function : List ℚ → ℚ
  num_dimensions : ℕ
  elite_population_size : ℕ
  mutation_probability : ℚ
  mutation_range : ℚ
  boundaries : List (ℚ × ℚ)
  verbose : ℤ
  evaluated_fitness_ranks : Bool
  evaluated_diversity_ranks : Bool
  mean_fitness : ℚ
  mean_coordinates : List ℚ
  mean_diversity : ℚ
  num_iterations : ℕ

/-- Model of `Population.__evaluate_fitness_ranks`: a no-op when the flag is set;
otherwise computes `mean_fitness`, sorts descending on `fitness`, assigns
`fitness_rank = position`, and marks the flag. -/
def Population.evaluate_fitness_ranks (pop : Population) : Population :=
  if pop.evaluated_fitness_ranks then pop
  else
    { pop with
      mean_fitness := (pop.points.map Point.fitness).sum / (pop.size : ℚ)
      points := assignFitnessRanks 0 (sortByFitnessDesc pop.points)
      evaluated_fitness_ranks := true }

/-- The `mean_coordinates` computation of `__evaluate_diversity_ranks`:
`np.sum(point.coordinates for point in self.points) / self.size`,
elementwise over vectors of length `num_dimensions`. -/
def meanCoordinates (points : List Point) (num_dimensions size : ℕ) : List ℚ :=
  (points.foldr (fun p acc => vecAdd p.coordinates acc)
      (List.replicate num_dimensions 0)).map (fun x => x / (size : ℚ))

/-- The diversity-computation loop of `__evaluate_diversity_ranks`: every
point's `diversity` becomes its L1 distance from `mean_coordinates`. -/
def withDiversities (points : List Point) (num_dimensions size : ℕ) : List Point :=
  let mean := meanCoordinates points num_dimensions size
  points.map (fun p => { p with diversity := l1Distance p.coordinates mean })

/-- Model of `Population.__evaluate_diversity_ranks`: a no-op when the flag is set;
otherwise computes `mean_coordinates`, each point's L1 `diversity` from it,
`mean_diversity`, sorts descending on `diversity`, assigns
`diversity_rank = position`, and marks the flag. -/
def Population.evaluate_diversity_ranks (pop : Population) : Population :=
  if pop.evaluated_diversity_ranks then pop
  else
    let withDiversity := withDiversities pop.points pop.num_dimensions pop.size
    { pop with
      mean_coordinates := meanCoordinates pop.points pop.num_dimensions pop.size
      mean_diversity := (withDiversity.map Point.diversity).sum / (pop.size : ℚ)
      points := assignDiversityRanks 0 (sortByDiversityDesc withDiversity)
      evaluated_diversity_ranks := true }

/-- The `while len(newpopulation) < self.size` loop of `__breed`.  Each
oracle entry `(parent1, parent2, splitpoint)` records the indices finally
accepted by the `weighted_choice` draws (after the re-draw loop that
forbids `parent1 == parent2`) and the `randint` split draw of the
`crossover` call.  `child1` is always appended; `child2` only while room
remains.  A raised `CrossoverError` propagates.  `fuel` bounds the number
of loop iterations (each iteration appends at least one child, so
`fuel = size` always suffices). -/
def breedLoop (points : List Point) (size : ℕ) :
    List (ℕ × ℕ × ℕ) → List Point → ℕ → Except String (List Point)
  | _, newpopulation, 0 => .ok newpopulation
  | oracle, newpopulation, fuel + 1 =>
    if newpopulation.length < size then
      match oracle with
      | [] => .ok newpopulation
      | (parent1, parent2, splitpoint) :: rest =>
        match crossover (points.getD parent1 default) (points.getD parent2 default)
            splitpoint with
        | .error e => .error e
        | .ok (child1, child2) =>
          let after1 := newpopulation ++ [child1]
          let after2 := if after1.length < size then after1 ++ [child2] else after1
          breedLoop points size rest after2 fuel
    else .ok newpopulation

/-- Model of `Population.__breed` on the member list: sort ascending by
`fitness_rank`, copy the best `elite_population_size` members unchanged
into the new population, fill the remaining slots by the breeding loop,
then evaluate the fitness of every point of the new population
(`for point in self.points: point.evaluate_fitness(...)`). -/
def breedPoints (objective : List ℚ → ℚ) (points : List Point)
    (size elite_population_size : ℕ) (oracle : List (ℕ × ℕ × ℕ)) :
    Except String (List Point) :=
  let sorted := sortByFitnessRank points
  let newpopulation := sorted.take elite_population_size
  match breedLoop sorted size oracle newpopulation size with
  | .error e => .error e
  | .ok filled => .ok (filled.map (fun p => p.evaluate_fitness objective))

/-- Number of `point.evaluate_fitness` calls made by the final evaluation
loop of `__breed`: the loop runs over every member of the new population,
elites included. -/
def breedEvaluationCount (points : List Point) (size elite_population_size : ℕ)
    (oracle : List (ℕ × ℕ × ℕ)) : ℕ :=
  let sorted := sortByFitnessRank points
  match breedLoop sorted size oracle (sorted.take elite_population_size) size with
  | .error _ => 0
  | .ok filled => filled.length

/-- Model of `Population.best_estimate`: linear scan keeping the first point whose
fitness strictly exceeds the running best (which starts at `-inf`, so the
first point always replaces `None`). -/
def best_estimate (points : List Point) : Option Point :=
  points.foldl
    (fun best point =>
      match best with
      | none => some point
      | some b => if point.fitness > b.fitness then some point else best)
    none

/-- Model of `Population.__init__`.  `coordDraws` holds the raw uniform draws for
the coordinates of each created point (one inner list per point); `popId`
models the identity of the freshly created Python object.  The parameter
checks run, in source order, before any `Point` is created; on failure the
constructor raises and no population state exists. -/
def Population.init (popId : ℕ) (objective_function : List ℚ → ℚ)
    (dimensions population_size : ℕ) (boundaries : Option (List (ℚ × ℚ)))
    (elite_fraction mutation_probability mutation_range : ℚ) (verbose : ℤ)
    (coordDraws : List (List ℚ)) : Except String Population :=
  if elite_fraction > 1 ∨ elite_fraction < 0 then
    .error "Parameter elite_fraction must be in range [0,1]."
  else if mutation_probability > 1 ∨ mutation_probability < 0 then
    .error "Parameter mutation_probability must be in range [0,1]."
  else if ¬ (verbose = 0 ∨ verbose = 1 ∨ verbose = 2) then
    .error "Parameter verbose must be one of 0, 1 or 2."
  else
    let bnds :=
      match boundaries with
      | none => List.replicate dimensions ((0 : ℚ), (100 : ℚ))
      | some bs => bs ++ List.replicate (dimensions - bs.length) ((0 : ℚ), (100 : ℚ))
    if bnds.any (fun b => b.1 > b.2) then
      .error "Incorrect value for boundary - min greater than max for range."
    else
      let created := (List.range population_size).map (fun i =>
        { Point.init (some popId) bnds mutation_range (coordDraws.getD i [])
            with index := (i : ℤ) })
      let evaluated := created.map (fun p => p.evaluate_fitness objective_function)
      let pop : Population :=
        { popId := popId
          points := evaluated
          size := population_size
          objective_function := objective_function
          num_dimensions := dimensions
          elite_population_size := (⌊elite_fraction * (population_size : ℚ)⌋).toNat
          mutation_probability := mutation_probability
          mutation_range := mutation_range
          boundaries := bnds
          verbose := verbose
          evaluated_fitness_ranks := false
          evaluated_diversity_ranks := false
          mean_fitness := 0
          mean_coordinates := List.replicate dimensions 0
          mean_diversity := 0
          num_iterations := 1 }
      .ok pop.evaluate_fitness_ranks.evaluate_diversity_ranks

/-- The negated objective built inside `minimize`. -/
def objective_function_neg (objective_function : List ℚ → ℚ) : List ℚ → ℚ :=
  fun args => - objective_function args

/-- The tail of `minimize`: `maximize` (run on `objective_function_neg`)
returns `best_estimate` of its final population, whose points is the
`finalPoints` argument here; `minimize` then re-evaluates that best point
with the original, non-negated objective and returns it. -/
def minimize (objective_function : List ℚ → ℚ) (finalPoints : List Point) :
    Option Point :=
  (best_estimate finalPoints).map
    (fun best_point => best_point.evaluate_fitness objective_function)

/-- A concrete one-dimensional point: coordinate 50, boundary `(0, 100)`,
mutation range 5 (the source defaults). -/
def samplePoint : Point :=
  { popId := none
    boundaries := [(0, 100)]
    mutation_range := 5
    coordinates := [50]
    index := -1, fitness := 0, diversity := 0
    fitness_rank := -1, diversity_rank := -1 }

/-- A concrete member of population 0 with coordinates `[1, 2]`, fitness 3
(the coordinate sum) and fitness rank 0. -/
def sampleA : Point :=
  { popId := some 0
    boundaries := [(0, 100), (0, 100)]
    mutation_range := 5
    coordinates := [1, 2]
    index := 0, fitness := 3, diversity := 0
    fitness_rank := 0, diversity_rank := 1 }

/-- A concrete member of population 0 with coordinates `[4, 5]`, fitness 9
(the coordinate sum) and fitness rank 1. -/
def sampleB : Point :=
  { popId := some 0
    boundaries := [(0, 100), (0, 100)]
    mutation_range := 5
    coordinates := [4, 5]
    index := 1, fitness := 9, diversity := 0
    fitness_rank := 1, diversity_rank := 0 }

/-- A concrete two-member population holding `sampleA` and `sampleB`, with
both rank-validity flags cleared. -/
def samplePop : Population :=
  { popId := 0
    points := [sampleA, sampleB]
    size := 2
    objective_function := fun xs => xs.sum
    num_dimensions := 2
    elite_population_size := 1
    mutation_probability := 1/20
    mutation_range := 5
    boundaries := [(0, 100), (0, 100)]
    verbose := 0
    evaluated_fitness_ranks := false
    evaluated_diversity_ranks := false
    mean_fitness := 0
    mean_coordinates := [0, 0]
    mean_diversity := 0
    num_iterations := 1 }

/-- Bounds invariant of a point: as many coordinates as boundary pairs and,
dimension by dimension, `lower ≤ coordinate ≤ upper`. -/
def InBounds (p : Point) : Prop :=
  p.coordinates.length = p.boundaries.length ∧
  ∀ i, i < p.coordinates.length →
    (p.boundaries.getD i (0, 0)).1 ≤ p.coordinates.getD i 0 ∧
    p.coordinates.getD i 0 ≤ (p.boundaries.getD i (0, 0)).2

/-! ## Theorems -/

/-- C1: the claim states that after `mutate()` the chosen coordinate holds
the perturbed value clamped into `[lower, upper]`, i.e.
`max(lower, min(x, upper))`.  The code instead computes
`max(upper, min(lower, x))`: at the failing input below (coordinate 50,
bounds `(0, 100)`, perturbation draw `t = 6/10`, i.e. perturbed value 51)
the code stores 100 — the upper bound — while the claimed clamp is 51.
The source's own comment ("Ensure the point doesn't mutate out of range!")
shows clamping was the intent, so this is a defect of the code. -/
theorem mutate_clamp_sets_upper_bound :
    (samplePoint.mutate 0 (6/10)).coordinates = [100] ∧
    samplePoint.coordinates.getD 0 0 +
      uniform (-samplePoint.mutation_range) samplePoint.mutation_range (6/10) = 51 ∧
    max ((0 : ℚ)) (min 51 100) = 51 ∧ (51 : ℚ) ≠ 100 := by
  refine ⟨?_, ?_, ?_, ?_⟩
  · simp [Point.mutate, samplePoint, uniform]
  · simp [samplePoint, uniform]; norm_num
  · norm_num
  · norm_num

/-- C4, counterexample: the split index is drawn by
`randint(1, np.size(point1.coordinates))`, whose support is inclusive on
both ends.  With dimensionality 2 the draw `k = 2` is possible, and it
violates the claimed bound `k ≤ dimensionality - 1`. -/
theorem split_index_can_reach_dimensionality :
    randintSupport 1 2 2 ∧ ¬ (1 ≤ 2 ∧ 2 ≤ 2 - 1) := by decide

/-- C4, amended: the split index `k` drawn by `randint(1, d)` always
satisfies `1 ≤ k ≤ d` (upper end `d` included, not `d - 1`); when `k = d`
the first child receives every coordinate from the first parent and none
from the second. -/
theorem split_index_range_amended (d k : ℕ) (h : randintSupport 1 d k) :
    1 ≤ k ∧ k ≤ d ∧
    ∀ p1 p2 : Point, p1.popId = p2.popId → p1.coordinates.length = d →
      p2.coordinates.length = d →
      k = d → ∃ c1 c2, crossover p1 p2 k = .ok (c1, c2) ∧
        c1.coordinates = p1.coordinates := by
  refine ⟨h.1, h.2, ?_⟩
  intro p1 p2 hpop hlen hlen2 hkd
  refine ⟨crossoverChild p1 p2 k, crossoverChild p2 p1 k, ?_, ?_⟩
  · simp only [crossover, hpop, ne_eq, not_true_eq_false, if_false]
  · subst hkd
    simp only [crossoverChild]
    rw [List.take_of_length_le (le_of_eq hlen), List.drop_eq_nil_of_le]
    · simp
    · rw [hlen2]

/-- Witness for C4's amended theorem, at `d = 2`, `k = 2` and the concrete
parents `sampleA`, `sampleB`. -/
theorem split_index_range_witness :
    1 ≤ 2 ∧ 2 ≤ 2 ∧
    ∀ p1 p2 : Point, p1.popId = p2.popId → p1.coordinates.length = 2 →
      p2.coordinates.length = 2 →
      2 = 2 → ∃ c1 c2, crossover p1 p2 2 = .ok (c1, c2) ∧
        c1.coordinates = p1.coordinates :=
  split_index_range_amended 2 2 (by decide)

/-- C5: `crossover(A, B)` with split `k` produces `child1` carrying `A`'s
first `k` coordinates followed by `B`'s remaining ones, `child2` the
complement, and both children keep the parents' dimensionality. -/
theorem crossover_children_splice (p1 p2 : Point) (d k : ℕ)
    (hpop : p1.popId = p2.popId) (h1 : p1.coordinates.length = d)
    (h2 : p2.coordinates.length = d) (hk : k ≤ d) :
    ∃ c1 c2, crossover p1 p2 k = .ok (c1, c2) ∧
      c1.coordinates.take k = p1.coordinates.take k ∧
      c1.coordinates.drop k = p2.coordinates.drop k ∧
      c2.coordinates.take k = p2.coordinates.take k ∧
      c2.coordinates.drop k = p1.coordinates.drop k ∧
      c1.coordinates.length = d ∧ c2.coordinates.length = d := by
  have htk1 : (p1.coordinates.take k).length = k := by
    rw [List.length_take]; omega
  have htk2 : (p2.coordinates.take k).length = k := by
    rw [List.length_take]; omega
  refine ⟨crossoverChild p1 p2 k, crossoverChild p2 p1 k, ?_, ?_, ?_, ?_, ?_, ?_, ?_⟩
  · simp only [crossover, hpop, ne_eq, not_true_eq_false, if_false]
  · simp only [crossoverChild]
    rw [List.take_left' htk1]
  · simp only [crossoverChild]
    rw [List.drop_left' htk1]
  · simp only [crossoverChild]
    rw [List.take_left' htk2]
  · simp only [crossoverChild]
    rw [List.drop_left' htk2]
  · simp only [crossoverChild, List.length_append, htk1, List.length_drop]
    omega
  · simp only [crossoverChild, List.length_append, htk2, List.length_drop]
    omega

/-- Witness for C5 at the concrete parents `sampleA`, `sampleB` with
`d = 2`, `k = 1`. -/
theorem crossover_children_splice_witness :
    ∃ c1 c2, crossover sampleA sampleB 1 = .ok (c1, c2) ∧
      c1.coordinates.take 1 = sampleA.coordinates.take 1 ∧
      c1.coordinates.drop 1 = sampleB.coordinates.drop 1 ∧
      c2.coordinates.take 1 = sampleB.coordinates.take 1 ∧
      c2.coordinates.drop 1 = sampleA.coordinates.drop 1 ∧
      c1.coordinates.length = 2 ∧ c2.coordinates.length = 2 :=
  crossover_children_splice sampleA sampleB 2 1 (by decide) (by decide)
    (by decide) (by decide)

/-- C7: the point returned by `minimize` is the `best_estimate` of the
final population re-evaluated with the original (non-negated) objective,
so its reported fitness equals the objective at its own coordinates. -/
theorem minimize_reports_true_fitness (objective : List ℚ → ℚ)
    (finalPoints : List Point) (q : Point)
    (h : minimize objective finalPoints = some q) :
    q.fitness = objective q.coordinates := by
  unfold minimize at h
  rw [Option.map_eq_some'] at h
  obtain ⟨b, _, hq⟩ := h
  subst hq
  rfl

/-- Witness for C7: minimizing the coordinate-sum objective over a
final population holding only `sampleA`. -/
theorem minimize_reports_true_fitness_witness :
    ∃ q, minimize (fun xs => xs.sum) [sampleA] = some q ∧
      q.fitness = (fun xs : List ℚ => xs.sum) q.coordinates := by
  refine ⟨_, rfl, ?_⟩
  exact minimize_reports_true_fitness (fun xs => xs.sum) [sampleA] _ rfl

/-- C9: `Population.__init__` validates `elite_fraction`,
`mutation_probability` and `verbose` before anything else; any violation
makes the constructor raise (`Except.error`), and since the checks precede
point creation and evaluation, no population state exists on failure. -/
theorem population_init_validation_errors (popId : ℕ)
    (objective : List ℚ → ℚ) (dims psize : ℕ)
    (bnds : Option (List (ℚ × ℚ))) (ef mp mr : ℚ) (v : ℤ)
    (draws : List (List ℚ))
    (h : (ef > 1 ∨ ef < 0) ∨ (mp > 1 ∨ mp < 0) ∨ ¬ (v = 0 ∨ v = 1 ∨ v = 2)) :
    ∃ msg, Population.init popId objective dims psize bnds ef mp mr v draws
      = .error msg := by
  unfold Population.init
  split_ifs with h1 h2 h3
  any_goals exact ⟨_, rfl⟩
  tauto

/-- Witness for C9 at `elite_fraction = 3/2` (the spec's example). -/
theorem population_init_validation_witness :
    ∃ msg, Population.init 0 (fun _ => 0) 2 3 none (3/2) 0 5 0 []
      = .error msg :=
  population_init_validation_errors 0 (fun _ => 0) 2 3 none (3/2) 0 5 0 []
    (Or.inl (Or.inl (by norm_num)))

/-- C10: `weighted_choice` is partial.  With the valid weight vector
`[1, 0, 0]` (non-negative entries, positive sum) and the internal
`uniform(0, 1)` draw hitting 0 — a value in the draw's `[0, 1)` support —
the running total never drops strictly below the threshold, the scan falls
through, and the function returns `none` (Python `None`) instead of an
element of the choices list. -/
theorem weighted_choice_returns_none_at_zero_threshold :
    (∀ w ∈ [(1 : ℚ), 0, 0], 0 ≤ w) ∧ (0 : ℚ) < [(1 : ℚ), 0, 0].sum ∧
    ((0 : ℚ) ≤ 0 ∧ (0 : ℚ) < 1) ∧
    weighted_choice [(0 : ℕ), 1, 2] [(1 : ℚ), 0, 0] 0 = none := by
  refine ⟨?_, ?_, ⟨le_refl 0, by norm_num⟩, ?_⟩
  · intro w hw
    simp only [List.mem_cons, List.not_mem_nil, or_false] at hw
    rcases hw with h | h | h <;> simp [h]
  · norm_num
  · simp [weighted_choice, wcScan]

/-- Reading `getD` at the freshly `set` index gives the written value. -/
theorem getD_set_self_of_lt (l : List ℚ) (j : ℕ) (v : ℚ) (h : j < l.length) :
    (l.set j v).getD j 0 = v := by
  rw [List.getD_eq_getElem _ _ (by simpa using h)]
  exact List.getElem_set_self (by simpa using h)

/-- Reading `getD` away from the `set` index is unchanged. -/
theorem getD_set_ne_self (l : List ℚ) (i j : ℕ) (v : ℚ) (h : j ≠ i) :
    (l.set i v).getD j 0 = l.getD j 0 := by
  by_cases hj : j < l.length
  · rw [List.getD_eq_getElem _ _ (by simpa using hj),
      List.getD_eq_getElem _ _ hj]
    exact List.getElem_set_ne (fun hh => h hh.symm) _
  · rw [List.getD_eq_getElem?_getD, List.getD_eq_getElem?_getD,
      List.getElem?_eq_none (by simpa using hj),
      List.getElem?_eq_none (by omega)]

/-- Scanning a block of zero normalized weights leaves the running total
unchanged and, as long as the total has not dropped strictly below the
threshold, merely consumes the matching prefix of the choices. -/
theorem wcScan_skip_zeros {α : Type} (zs ws : List ℚ) (choices : List α)
    (total t : ℚ) (hz : ∀ x ∈ zs, x = 0) (hlt : ¬ total < t) :
    wcScan choices (zs ++ ws) total t
      = wcScan (choices.drop zs.length) ws total t := by
  induction zs generalizing choices with
  | nil => simp
  | cons z tl ih =>
    cases choices with
    | nil => cases ws <;> rfl
    | cons c cs =>
      have hz0 : z = 0 := hz z (List.mem_cons_self z tl)
      have htl : ∀ x ∈ tl, x = 0 := fun x hx => hz x (List.mem_cons_of_mem z hx)
      simp only [List.cons_append, wcScan, hz0, sub_zero]
      rw [if_neg hlt]
      simpa using ih cs htl

/-- C8, counterexample: the claim asks for the single-nonzero-entry item to
be returned for every possible value of the internal threshold.  At
threshold 0 — a value `uniform(0, 1)` can produce — the scan over weights
`[1, 0, 0]` falls through and returns `none`, not the item at index 0. -/
theorem weighted_choice_zero_threshold_counterexample :
    weighted_choice [(10 : ℚ), 20, 30] [(1 : ℚ), 0, 0] 0 = none ∧
    weighted_choice [(10 : ℚ), 20, 30] [(1 : ℚ), 0, 0] 0 ≠ some 10 := by
  constructor
  · simp [weighted_choice, wcScan]
  · simp [weighted_choice, wcScan]

/-- C8, amended: for a weight vector with exactly one non-zero (positive)
entry, `weighted_choice` returns the item at that entry's index for every
threshold in the open interval `(0, 1)`; at threshold exactly 0 the scan
falls through instead (see the counterexample). -/
theorem weighted_choice_single_nonzero_amended {α : Type} (choices : List α)
    (pre post : List ℚ) (w t : ℚ) (hw : 0 < w)
    (hpre : ∀ x ∈ pre, x = 0) (hpost : ∀ x ∈ post, x = 0)
    (hlen : pre.length < choices.length) (ht0 : 0 < t) (ht1 : t < 1) :
    weighted_choice choices (pre ++ w :: post) t = choices[pre.length]? := by
  have hsum : (pre ++ w :: post).sum = w := by
    rw [List.sum_append, List.sum_cons, List.sum_eq_zero hpre,
      List.sum_eq_zero hpost]
    ring
  unfold weighted_choice
  rw [hsum, List.map_append, List.map_cons]
  have hzs : ∀ x ∈ pre.map (fun y => y / w), x = 0 := by
    intro x hx
    obtain ⟨y, hy, rfl⟩ := List.mem_map.mp hx
    rw [hpre y hy, zero_div]
  rw [wcScan_skip_zeros _ _ _ _ _ hzs (by linarith), List.length_map,
    List.drop_eq_getElem_cons hlen]
  simp only [wcScan, div_self (ne_of_gt hw)]
  rw [if_pos (by linarith : (1 : ℚ) - 1 < t), List.getElem?_eq_getElem hlen]

/-- Witness for C8's amended theorem: weights `[1, 0, 0]`, threshold
`1/2`, returning the item at index 0. -/
theorem weighted_choice_single_nonzero_witness :
    weighted_choice [(10 : ℚ), 20, 30] [(1 : ℚ), 0, 0] (1/2) = some 10 := by
  have h := weighted_choice_single_nonzero_amended [(10 : ℚ), 20, 30]
    [] [0, 0] 1 (1/2) one_pos (by simp) (by simp) (by simp)
    (by norm_num) (by norm_num)
  simpa using h

/-- C2: the bounds invariant.  (a) A point freshly created by
`Point.__init__` over well-formed boundaries satisfies it: every
coordinate is `uniform(lower, upper)` of a raw draw in `[0, 1)`.
(b) `mutate()` preserves it for every choice of dimension and perturbation
draw: the clamp of the source forces the mutated coordinate to the upper
bound, which lies within `[lower, upper]`, and the other coordinates are
untouched. -/
theorem point_in_bounds_after_init_and_mutate
    (popId : Option ℕ) (boundaries : List (ℚ × ℚ)) (mr : ℚ) (ts : List ℚ)
    (hwf : ∀ b ∈ boundaries, b.1 ≤ b.2)
    (hts : ∀ t ∈ ts, 0 ≤ t ∧ t < 1)
    (hlen : ts.length = boundaries.length) :
    InBounds (Point.init popId boundaries mr ts) ∧
    ∀ (p : Point) (i : ℕ) (t : ℚ), (∀ b ∈ p.boundaries, b.1 ≤ b.2) →
      InBounds p → InBounds (p.mutate i t) := by
  constructor
  · constructor
    · simp [Point.init, List.length_zip, hlen]
    · intro i hi
      simp only [Point.init, List.length_map, List.length_zip, hlen,
        min_self] at hi
      have hib : i < boundaries.length := hi
      have hit : i < ts.length := by omega
      have hiz : i < (boundaries.zip ts).length := by
        simp [List.length_zip, hlen, hi]
      have hval : (Point.init popId boundaries mr ts).coordinates.getD i 0
          = uniform boundaries[i].1 boundaries[i].2 ts[i] := by
        simp only [Point.init]
        rw [List.getD_eq_getElem _ _ (by simpa [List.length_zip, hlen, min_self] using hi),
          List.getElem_map]
        congr 1 <;> simp [List.getElem_zip]
      have hbd : (Point.init popId boundaries mr ts).boundaries.getD i (0, 0)
          = boundaries[i] := by
        simp only [Point.init]
        rw [List.getD_eq_getElem _ _ hib]
      have hwfi : boundaries[i].1 ≤ boundaries[i].2 :=
        hwf boundaries[i] (List.getElem_mem hib)
      obtain ⟨ht0, ht1⟩ := hts ts[i] (List.getElem_mem hit)
      rw [hval, hbd]
      unfold uniform
      constructor
      · have : 0 ≤ (boundaries[i].2 - boundaries[i].1) * ts[i] :=
          mul_nonneg (by linarith) ht0
        linarith
      · have : (boundaries[i].2 - boundaries[i].1) * ts[i]
            ≤ (boundaries[i].2 - boundaries[i].1) * 1 :=
          mul_le_mul_of_nonneg_left (le_of_lt ht1) (by linarith)
        linarith
  · intro p i t hwfp hp
    obtain ⟨hplen, hpin⟩ := hp
    have hcoords : (p.mutate i t).coordinates
        = p.coordinates.set i
          ((p.boundaries.getD i (0, 0)).2 ⊔
            ((p.boundaries.getD i (0, 0)).1 ⊓
              (p.coordinates.getD i 0 +
                uniform (-p.mutation_range) p.mutation_range t))) := rfl
    have hbds : (p.mutate i t).boundaries = p.boundaries := rfl
    constructor
    · rw [hcoords, hbds, List.length_set]; exact hplen
    · intro j hj
      rw [hcoords, List.length_set] at hj
      rw [hcoords, hbds]
      by_cases hji : j = i
      · subst hji
        have hjb : j < p.boundaries.length := by omega
        have hwfb : (p.boundaries.getD j (0, 0)).1
            ≤ (p.boundaries.getD j (0, 0)).2 := by
          rw [List.getD_eq_getElem _ _ hjb]
          exact hwfp p.boundaries[j] (List.getElem_mem hjb)
        rw [getD_set_self_of_lt _ _ _ hj]
        exact ⟨le_trans hwfb (le_max_left _ _),
          max_le le_rfl (le_trans (min_le_left _ _) hwfb)⟩
      · rw [getD_set_ne_self _ _ _ _ hji]
        exact hpin j hj

/-- Witness for C2 at boundaries `[(0, 100)]`, draw `[0]`. -/
theorem point_in_bounds_witness :
    InBounds (Point.init none [((0 : ℚ), (100 : ℚ))] 5 [0]) ∧
    ∀ (p : Point) (i : ℕ) (t : ℚ), (∀ b ∈ p.boundaries, b.1 ≤ b.2) →
      InBounds p → InBounds (p.mutate i t) :=
  point_in_bounds_after_init_and_mutate none [((0 : ℚ), (100 : ℚ))] 5 [0]
    (by intro b hb; simp only [List.mem_singleton] at hb; subst hb; norm_num)
    (by intro t ht; simp only [List.mem_singleton] at ht; subst ht; norm_num)
    rfl

/-- The rank loop hands out consecutive ranks: mapped over the result,
`fitness_rank` is exactly `n, n+1, ...`. -/
theorem assignFitnessRanks_map_rank (l : List Point) (n : ℕ) :
    (assignFitnessRanks n l).map Point.fitness_rank
      = (List.range' n l.length).map Int.ofNat := by
  induction l generalizing n with
  | nil => simp [assignFitnessRanks]
  | cons p ps ih => simp [assignFitnessRanks, List.range'_succ, ih (n + 1)]

/-- Assigning fitness ranks leaves every point's fitness unchanged. -/
theorem assignFitnessRanks_map_fitness (l : List Point) (n : ℕ) :
    (assignFitnessRanks n l).map Point.fitness = l.map Point.fitness := by
  induction l generalizing n with
  | nil => rfl
  | cons p ps ih => simp [assignFitnessRanks, ih]

/-- Same for the diversity rank loop. -/
theorem assignDiversityRanks_map_rank (l : List Point) (n : ℕ) :
    (assignDiversityRanks n l).map Point.diversity_rank
      = (List.range' n l.length).map Int.ofNat := by
  induction l generalizing n with
  | nil => simp [assignDiversityRanks]
  | cons p ps ih => simp [assignDiversityRanks, List.range'_succ, ih (n + 1)]

/-- Assigning diversity ranks leaves every point's diversity unchanged. -/
theorem assignDiversityRanks_map_diversity (l : List Point) (n : ℕ) :
    (assignDiversityRanks n l).map Point.diversity = l.map Point.diversity := by
  induction l generalizing n with
  | nil => rfl
  | cons p ps ih => simp [assignDiversityRanks, ih]

/-- The head of a descending `mergeSort` by `key` carries the maximal key
among the sorted list's members. -/
theorem mergeSort_desc_head_max (key : Point → ℚ) (l : List Point)
    (a : Point) (t : List Point)
    (h : l.mergeSort (fun x y => key y ≤ key x) = a :: t) :
    ∀ q ∈ l.mergeSort (fun x y => key y ≤ key x), key q ≤ key a := by
  have hs := @List.sorted_mergeSort Point
    (fun x y : Point => decide (key y ≤ key x))
    (fun x y z hxy hyz => by
      simp only [decide_eq_true_eq] at *
      exact le_trans hyz hxy)
    (fun x y => by
      simp only [Bool.or_eq_true, decide_eq_true_eq]
      exact le_total (key y) (key x))
    l
  rw [h] at hs
  intro q hq
  rw [h] at hq
  rcases List.mem_cons.mp hq with rfl | hqt
  · exact le_refl _
  · have := (List.pairwise_cons.mp hs).1 q hqt
    simpa using this

/-- One fitness-ranking pass over a nonempty member list: the assigned
ranks are exactly `0..N-1` in order, and the rank-0 member carries the
maximal fitness. -/
theorem rankPassFitness (l : List Point) (hne : l ≠ []) :
    ((assignFitnessRanks 0 (sortByFitnessDesc l)).map Point.fitness_rank
      = (List.range l.length).map Int.ofNat) ∧
    ∃ p ∈ assignFitnessRanks 0 (sortByFitnessDesc l), p.fitness_rank = 0 ∧
      ∀ q ∈ assignFitnessRanks 0 (sortByFitnessDesc l),
        q.fitness ≤ p.fitness := by
  have hlen : (sortByFitnessDesc l).length = l.length := List.length_mergeSort l
  constructor
  · rw [assignFitnessRanks_map_rank, hlen, List.range_eq_range']
  · have hne2 : sortByFitnessDesc l ≠ [] := by
      intro hc
      have hl := List.mergeSort_perm l (fun a b => b.fitness ≤ a.fitness)
      unfold sortByFitnessDesc at hc
      rw [hc] at hl
      exact hne (List.Perm.nil_eq hl).symm
    obtain ⟨a, t, hat⟩ := List.exists_cons_of_ne_nil hne2
    refine ⟨{ a with fitness_rank := 0 }, ?_, rfl, ?_⟩
    · rw [hat]
      simp [assignFitnessRanks]
    · intro q hq
      have hqf : q.fitness
          ∈ (assignFitnessRanks 0 (sortByFitnessDesc l)).map Point.fitness :=
        List.mem_map_of_mem Point.fitness hq
      rw [assignFitnessRanks_map_fitness] at hqf
      obtain ⟨r, hr, hrf⟩ := List.mem_map.mp hqf
      have hmax := mergeSort_desc_head_max Point.fitness l a t hat r hr
      show q.fitness ≤ a.fitness
      rw [← hrf]
      exact hmax

/-- One diversity-ranking pass over a nonempty member list: the assigned
ranks are exactly `0..N-1` in order, and the rank-0 member carries the
maximal diversity. -/
theorem rankPassDiversity (l : List Point) (hne : l ≠ []) :
    ((assignDiversityRanks 0 (sortByDiversityDesc l)).map Point.diversity_rank
      = (List.range l.length).map Int.ofNat) ∧
    ∃ p ∈ assignDiversityRanks 0 (sortByDiversityDesc l), p.diversity_rank = 0 ∧
      ∀ q ∈ assignDiversityRanks 0 (sortByDiversityDesc l),
        q.diversity ≤ p.diversity := by
  have hlen : (sortByDiversityDesc l).length = l.length := List.length_mergeSort l
  constructor
  · rw [assignDiversityRanks_map_rank, hlen, List.range_eq_range']
  · have hne2 : sortByDiversityDesc l ≠ [] := by
      intro hc
      have hl := List.mergeSort_perm l (fun a b => b.diversity ≤ a.diversity)
      unfold sortByDiversityDesc at hc
      rw [hc] at hl
      exact hne (List.Perm.nil_eq hl).symm
    obtain ⟨a, t, hat⟩ := List.exists_cons_of_ne_nil hne2
    refine ⟨{ a with diversity_rank := 0 }, ?_, rfl, ?_⟩
    · rw [hat]
      simp [assignDiversityRanks]
    · intro q hq
      have hqf : q.diversity
          ∈ (assignDiversityRanks 0 (sortByDiversityDesc l)).map Point.diversity :=
        List.mem_map_of_mem Point.diversity hq
      rw [assignDiversityRanks_map_diversity] at hqf
      obtain ⟨r, hr, hrf⟩ := List.mem_map.mp hqf
      have hmax := mergeSort_desc_head_max Point.diversity l a t hat r hr
      show q.diversity ≤ a.diversity
      rw [← hrf]
      exact hmax

/-- C6: after a fitness-ranking pass (flag cleared, so the pass really
recomputes) over a population of `N > 0` members, the `fitness_rank`
values are a permutation of `0..N-1` and rank 0 is held by a member of
maximal fitness; likewise for a diversity-ranking pass with
`diversity_rank` and the diversities computed during that pass. -/
theorem ranking_pass_permutation_and_max (pop : Population) (N : ℕ)
    (hlen : pop.points.length = N) (hpos : 0 < N)
    (hf : pop.evaluated_fitness_ranks = false)
    (hd : pop.evaluated_diversity_ranks = false) :
    ((pop.evaluate_fitness_ranks.points.map Point.fitness_rank).Perm
        ((List.range N).map Int.ofNat) ∧
      ∃ p ∈ pop.evaluate_fitness_ranks.points, p.fitness_rank = 0 ∧
        ∀ q ∈ pop.evaluate_fitness_ranks.points, q.fitness ≤ p.fitness) ∧
    ((pop.evaluate_diversity_ranks.points.map Point.diversity_rank).Perm
        ((List.range N).map Int.ofNat) ∧
      ∃ p ∈ pop.evaluate_diversity_ranks.points, p.diversity_rank = 0 ∧
        ∀ q ∈ pop.evaluate_diversity_ranks.points,
          q.diversity ≤ p.diversity) := by
  have hne : pop.points ≠ [] := by
    intro hc
    rw [hc] at hlen
    simp at hlen
    omega
  have hfp : pop.evaluate_fitness_ranks.points
      = assignFitnessRanks 0 (sortByFitnessDesc pop.points) := by
    unfold Population.evaluate_fitness_ranks
    rw [hf]
    rfl
  have hwd : (withDiversities pop.points pop.num_dimensions pop.size).length
      = N := by
    rw [withDiversities, List.length_map, hlen]
  have hdp : pop.evaluate_diversity_ranks.points
      = assignDiversityRanks 0 (sortByDiversityDesc
          (withDiversities pop.points pop.num_dimensions pop.size)) := by
    unfold Population.evaluate_diversity_ranks
    rw [hd]
    rfl
  constructor
  · obtain ⟨hmap, hex⟩ := rankPassFitness pop.points hne
    constructor
    · rw [hfp, hmap, hlen]
    · rw [hfp]
      exact hex
  · have hneD : withDiversities pop.points pop.num_dimensions pop.size ≠ [] := by
      intro hc
      rw [hc] at hwd
      simp at hwd
      omega
    obtain ⟨hmap, hex⟩ := rankPassDiversity _ hneD
    constructor
    · rw [hdp, hmap, hwd]
    · rw [hdp]
      exact hex

/-- Witness for C6 at the concrete two-member population `samplePop`. -/
theorem ranking_pass_witness :
    ((samplePop.evaluate_fitness_ranks.points.map Point.fitness_rank).Perm
        ((List.range 2).map Int.ofNat) ∧
      ∃ p ∈ samplePop.evaluate_fitness_ranks.points, p.fitness_rank = 0 ∧
        ∀ q ∈ samplePop.evaluate_fitness_ranks.points, q.fitness ≤ p.fitness) ∧
    ((samplePop.evaluate_diversity_ranks.points.map Point.diversity_rank).Perm
        ((List.range 2).map Int.ofNat) ∧
      ∃ p ∈ samplePop.evaluate_diversity_ranks.points, p.diversity_rank = 0 ∧
        ∀ q ∈ samplePop.evaluate_diversity_ranks.points,
          q.diversity ≤ p.diversity) :=
  ranking_pass_permutation_and_max samplePop 2 rfl (by norm_num) rfl rfl

/-- Re-evaluating a point whose stored fitness already equals the
objective at its coordinates changes nothing. -/
theorem evaluate_fitness_eq_self (p : Point) (f : List ℚ → ℚ)
    (h : p.fitness = f p.coordinates) : p.evaluate_fitness f = p := by
  unfold Point.evaluate_fitness
  rw [← h]

/-- The breeding loop of `__breed`, within a single population and with
in-range parent indices, never raises, only appends children after
`newpopulation`, and fills the list to exactly `size` members whenever the
fuel and the oracle cover the missing slots. -/
theorem breedLoop_fills (points : List Point) (size : ℕ) (pid : ℕ)
    (hpts : ∀ p ∈ points, p.popId = some pid) :
    ∀ (fuel : ℕ) (oracle : List (ℕ × ℕ × ℕ)) (newpopulation : List Point),
      newpopulation.length ≤ size → size ≤ newpopulation.length + fuel →
      fuel ≤ oracle.length →
      (∀ e ∈ oracle, e.1 < points.length ∧ e.2.1 < points.length) →
      ∃ tail, breedLoop points size oracle newpopulation fuel
          = .ok (newpopulation ++ tail) ∧
        (newpopulation ++ tail).length = size := by
  intro fuel
  induction fuel with
  | zero =>
    intro oracle newpopulation hle hge _ _
    refine ⟨[], by rw [breedLoop.eq_def]; simp, ?_⟩
    simp only [List.append_nil]
    omega
  | succ fuel ih =>
    intro oracle newpopulation hle hge hfo hor
    by_cases hlt : newpopulation.length < size
    · match oracle with
      | [] => simp at hfo
      | (p1, p2, k) :: rest =>
        have h1 := (hor (p1, p2, k) (List.mem_cons_self _ _)).1
        have h2 := (hor (p1, p2, k) (List.mem_cons_self _ _)).2
        have hp1 : (points.getD p1 default).popId = some pid := by
          rw [List.getD_eq_getElem _ _ h1]
          exact hpts _ (List.getElem_mem h1)
        have hp2 : (points.getD p2 default).popId = some pid := by
          rw [List.getD_eq_getElem _ _ h2]
          exact hpts _ (List.getElem_mem h2)
        set c1 := crossoverChild (points.getD p1 default)
          (points.getD p2 default) k with hc1
        set c2 := crossoverChild (points.getD p2 default)
          (points.getD p1 default) k with hc2
        have hco : crossover (points.getD p1 default) (points.getD p2 default) k
            = .ok (c1, c2) := by
          unfold crossover
          rw [if_neg]
          rw [hp1, hp2]
          simp
        have hstep : breedLoop points size ((p1, p2, k) :: rest)
              newpopulation (fuel + 1)
            = breedLoop points size rest
                (if (newpopulation ++ [c1]).length < size
                  then (newpopulation ++ [c1]) ++ [c2]
                  else newpopulation ++ [c1]) fuel := by
          conv_lhs => rw [breedLoop.eq_def]
          simp only [if_pos hlt, hco]
        have horrest : ∀ e ∈ rest, e.1 < points.length ∧ e.2.1 < points.length :=
          fun e he => hor e (List.mem_cons_of_mem _ he)
        have hforest : fuel ≤ rest.length := by
          simp only [List.length_cons] at hfo
          omega
        have hL1 : (newpopulation ++ [c1]).length = newpopulation.length + 1 := by
          simp
        have hL2 : ((newpopulation ++ [c1]) ++ [c2]).length
            = newpopulation.length + 2 := by
          simp
        by_cases hlt2 : (newpopulation ++ [c1]).length < size
        · obtain ⟨t2, heq, hlen2⟩ := ih rest ((newpopulation ++ [c1]) ++ [c2])
            (by omega) (by omega) hforest horrest
          refine ⟨[c1, c2] ++ t2, ?_, ?_⟩
          · rw [hstep, if_pos hlt2, heq]
            simp
          · simp only [List.length_append, List.length_cons, List.length_nil]
              at hlen2 ⊢
            omega
        · obtain ⟨t2, heq, hlen2⟩ := ih rest (newpopulation ++ [c1])
            (by omega) (by omega) hforest horrest
          refine ⟨[c1] ++ t2, ?_, ?_⟩
          · rw [hstep, if_neg hlt2, heq]
            simp
          · simp only [List.length_append, List.length_cons, List.length_nil]
              at hlen2 ⊢
            omega
    · refine ⟨[], ?_, ?_⟩
      · rw [breedLoop.eq_def]
        simp only [if_neg hlt, List.append_nil]
      · simp only [List.append_nil]
        omega

/-- The final loop of `__breed` calls `evaluate_fitness` once per member
of the new population — `size` calls in total, elites included. -/
theorem breedEvaluationCount_eq_size (points : List Point)
    (size elite : ℕ) (oracle : List (ℕ × ℕ × ℕ)) (pid : ℕ)
    (hsz : points.length = size) (helite : elite ≤ size)
    (hpid : ∀ p ∈ points, p.popId = some pid)
    (hor_len : size ≤ oracle.length)
    (hor_idx : ∀ e ∈ oracle, e.1 < size ∧ e.2.1 < size) :
    breedEvaluationCount points size elite oracle = size := by
  have hslen : (sortByFitnessRank points).length = size := by
    unfold sortByFitnessRank
    rw [List.length_mergeSort, hsz]
  have hsmem : ∀ p ∈ sortByFitnessRank points, p.popId = some pid := by
    intro p hp
    have := (List.mergeSort_perm points
      (fun a b => a.fitness_rank ≤ b.fitness_rank)).mem_iff.mp hp
    exact hpid p this
  have hor2 : ∀ e ∈ oracle, e.1 < (sortByFitnessRank points).length
      ∧ e.2.1 < (sortByFitnessRank points).length := by
    intro e he
    rw [hslen]
    exact hor_idx e he
  have htake : ((sortByFitnessRank points).take elite).length = elite := by
    rw [List.length_take, hslen]
    omega
  obtain ⟨tail, heq, hlen⟩ := breedLoop_fills (sortByFitnessRank points) size pid
    hsmem size oracle ((sortByFitnessRank points).take elite)
    (by omega) (by omega) hor_len hor2
  unfold breedEvaluationCount
  simp only [heq]
  exact hlen

/-- C3, counterexample: the claim includes "with no re-evaluation of their
fitness" for the elite members.  In the source, after the elites are
copied and the remaining slots bred, `__breed` runs
`for point in self.points: point.evaluate_fitness(...)` over the whole new
population, so the number of fitness evaluations equals the population
size (here 2), not `size - elite_count` (here 1): the one elite member is
re-evaluated as well. -/
theorem breed_reevaluates_elites_counterexample :
    breedEvaluationCount [sampleA, sampleB] 2 1 [(0, 1, 1), (0, 1, 1)] = 2 ∧
    (2 : ℕ) ≠ 2 - 1 :=
  ⟨breedEvaluationCount_eq_size [sampleA, sampleB] 2 1 [(0, 1, 1), (0, 1, 1)] 0
      rfl (by omega) (by decide) (by decide) (by decide),
   by decide⟩

/-- C3, amended: `__breed` produces exactly `size` members, and the
`elite_population_size` members of best (lowest) prior `fitness_rank`
appear unchanged — same coordinates and same fitness — at the head of the
new generation.  (Unlike the original claim, their fitness IS re-evaluated
along with every other memberʼs; with the stored fitness equal to the
deterministic objective at the stored coordinates — hypothesis `heval` —
the re-evaluation reproduces the same value, which is why they appear
unchanged.) -/
theorem breed_size_and_elites_amended (objective : List ℚ → ℚ)
    (points : List Point) (size elite : ℕ) (oracle : List (ℕ × ℕ × ℕ))
    (pid : ℕ) (hsz : points.length = size) (helite : elite ≤ size)
    (hpid : ∀ p ∈ points, p.popId = some pid)
    (hor_len : size ≤ oracle.length)
    (hor_idx : ∀ e ∈ oracle, e.1 < size ∧ e.2.1 < size)
    (heval : ∀ p ∈ points, p.fitness = objective p.coordinates) :
    ∃ result, breedPoints objective points size elite oracle = .ok result ∧
      result.length = size ∧
      result.take elite = (sortByFitnessRank points).take elite := by
  have hslen : (sortByFitnessRank points).length = size := by
    unfold sortByFitnessRank
    rw [List.length_mergeSort, hsz]
  have hsmem : ∀ p ∈ sortByFitnessRank points, p.popId = some pid := by
    intro p hp
    have := (List.mergeSort_perm points
      (fun a b => a.fitness_rank ≤ b.fitness_rank)).mem_iff.mp hp
    exact hpid p this
  have hor2 : ∀ e ∈ oracle, e.1 < (sortByFitnessRank points).length
      ∧ e.2.1 < (sortByFitnessRank points).length := by
    intro e he
    rw [hslen]
    exact hor_idx e he
  have htake : ((sortByFitnessRank points).take elite).length = elite := by
    rw [List.length_take, hslen]
    omega
  obtain ⟨tail, heq, hlen⟩ := breedLoop_fills (sortByFitnessRank points) size pid
    hsmem size oracle ((sortByFitnessRank points).take elite)
    (by omega) (by omega) hor_len hor2
  have hall : ∀ p ∈ (sortByFitnessRank points).take elite,
      p.evaluate_fitness objective = p := by
    intro p hp
    have hps : p ∈ sortByFitnessRank points := List.mem_of_mem_take hp
    have hpp : p ∈ points := (List.mergeSort_perm points
      (fun a b => a.fitness_rank ≤ b.fitness_rank)).mem_iff.mp hps
    exact evaluate_fitness_eq_self p objective (heval p hpp)
  have hidmap : ((sortByFitnessRank points).take elite).map
      (fun p => p.evaluate_fitness objective)
      = (sortByFitnessRank points).take elite := by
    rw [List.map_congr_left hall, List.map_id']
  have hmaplen : (((sortByFitnessRank points).take elite).map
      (fun p => p.evaluate_fitness objective)).length = elite := by
    rw [List.length_map, htake]
  refine ⟨(((sortByFitnessRank points).take elite) ++ tail).map
    (fun p => p.evaluate_fitness objective), ?_, ?_, ?_⟩
  · unfold breedPoints
    simp only [heq]
  · rw [List.length_map]
    exact hlen
  · rw [List.map_append, List.take_left' hmaplen, hidmap]

/-- Witness for C3ʼs amended theorem at the concrete two-member population
`[sampleA, sampleB]` with one elite and the coordinate-sum objective. -/
theorem breed_size_and_elites_witness :
    ∃ result, breedPoints (fun xs => xs.sum) [sampleA, sampleB] 2 1
        [(0, 1, 1), (0, 1, 1)] = .ok result ∧
      result.length = 2 ∧
      result.take 1 = (sortByFitnessRank [sampleA, sampleB]).take 1 :=
  breed_size_and_elites_amended (fun xs => xs.sum) [sampleA, sampleB] 2 1
    [(0, 1, 1), (0, 1, 1)] 0 rfl (by omega) (by decide) (by decide) (by decide)
    (by
      intro p hp
      rcases List.mem_cons.mp hp with rfl | hp2
      · norm_num [sampleA]
      · rcases List.mem_cons.mp hp2 with rfl | hp3
        · norm_num [sampleB]
        · simp at hp3)

end Fmga
